import Mathlib

/-!
# Vaultix escrow contract — shallow embedding and verification

This file embeds the two subsystems of the Vaultix repository in Lean 4 and
proves properties of the embedded code.

* `src/apps/onchain/src/lib.rs` — the milestone escrow ledger
  (`create_escrow`, `deposit_funds`, `release_milestone`, `cancel_escrow`,
  `complete_escrow`, `validate_milestones`, `verify_all_released`).
* `src/app/onchain/contracts/escrow/src/confirmation/` — the multi-party
  confirmation subsystem (`ThresholdLogic`, `ConfirmationStorage`,
  `ConfirmationLogic::confirm`).

Modelling conventions:

* Soroban `Address` and `Symbol` values are opaque identifiers, embedded as
  `Nat`.
* Rust `i128` is embedded as `Int`; every place the source uses
  `checked_add` the embedding uses `checkedAddI128`, which fails outside
  `[-2^127, 2^127 - 1]`.  Rust `u32`/`u64` are embedded as `Nat`; the one
  `u32` addition that the source performs without a checked operation
  (the confirmation counter) is reduced modulo `2^32`.
* Persistent storage is keyed per `escrow_id` and distinct ids are fully
  independent, so the escrow ledger state is modelled as the content of a
  single id's slot: `Option Escrow`.  Likewise the confirmation ledger
  state for one id is a `ConfSt` record holding the three storage slots the
  code reads and writes (status code, party map, counter).
* `require_auth` and the token-client transfers are external collaborators:
  an authenticated depositor is assumed and a transfer either succeeds or
  aborts the whole invocation (a Soroban trap), so transfers are embedded
  as effect-free.  No claim below depends on a failing transfer.
* Each operation returns the pair of its `Result` value and the storage
  state after the call, translated statement by statement from the source
  so that any write preceding an error return would be visible in the
  returned state.
-/

/-! ## i128 arithmetic -/

def i128Min : Int := -(2 ^ 127)

def i128Max : Int := 2 ^ 127 - 1

/-- Rust `i128::checked_add`: `none` exactly when the exact sum leaves the
i128 range. -/
def checkedAddI128 (a b : Int) : Option Int :=
  if i128Min ≤ a + b ∧ a + b ≤ i128Max then some (a + b) else none

/-! ## Escrow ledger data model (`src/apps/onchain/src/lib.rs`) -/

inductive MilestoneStatus where
  | Pending
  | Released
  | Disputed
  deriving DecidableEq, Repr

structure Milestone where
  amount : Int
  status : MilestoneStatus
  description : Nat
  deriving DecidableEq, Repr

inductive EscrowStatus where
  | Created
  | Active
  | Completed
  | Cancelled
  deriving DecidableEq, Repr

structure Escrow where
  depositor : Nat
  recipient : Nat
  token_address : Nat
  total_amount : Int
  total_released : Int
  milestones : List Milestone
  status : EscrowStatus
  deadline : Nat
  deriving DecidableEq, Repr

inductive Error where
  | EscrowNotFound
  | EscrowAlreadyExists
  | MilestoneNotFound
  | MilestoneAlreadyReleased
  | UnauthorizedAccess
  | InvalidMilestoneAmount
  | TotalAmountMismatch
  | InsufficientBalance
  | EscrowNotActive
  | VectorTooLarge
  | ZeroAmount
  | InvalidDeadline
  | SelfDealing
  | EscrowAlreadyFunded
  | TokenTransferFailed
  deriving DecidableEq, Repr

/-! ## Escrow ledger operations -/

/-- Loop body of `validate_milestones`: walk the vector keeping the running
`i128` total, rejecting non-positive amounts and overflowing sums. -/
def validateMilestonesGo (total : Int) : List Milestone → Except Error Int
  | [] => Except.ok total
  | m :: rest =>
    if m.amount ≤ 0 then Except.error Error.ZeroAmount
    else
      match checkedAddI128 total m.amount with
      | none => Except.error Error.InvalidMilestoneAmount
      | some t => validateMilestonesGo t rest

/-- `validate_milestones` from `lib.rs`: size cap of 20, then the summation
pass. -/
def validate_milestones (milestones : List Milestone) : Except Error Int :=
  if 20 < milestones.length then Except.error Error.VectorTooLarge
  else validateMilestonesGo 0 milestones

/-- `verify_all_released` from `lib.rs`. -/
def verify_all_released (milestones : List Milestone) : Bool :=
  milestones.all (fun m => m.status = MilestoneStatus.Released)

/-- `create_escrow`: self-dealing check, existence check, milestone
validation, then store the new record with all milestones normalized to
`Pending` and status `Created`. -/
def create_escrow (st : Option Escrow) (depositor recipient token_address : Nat)
    (milestones : List Milestone) (deadline : Nat) :
    Except Error Unit × Option Escrow :=
  if depositor = recipient then (Except.error Error.SelfDealing, st)
  else if st.isSome then (Except.error Error.EscrowAlreadyExists, st)
  else
    match validate_milestones milestones with
    | Except.error e => (Except.error e, st)
    | Except.ok total_amount =>
      let initialized := milestones.map (fun m => { m with status := MilestoneStatus.Pending })
      (Except.ok (),
       some { depositor := depositor, recipient := recipient,
              token_address := token_address, total_amount := total_amount,
              total_released := 0, milestones := initialized,
              status := EscrowStatus.Created, deadline := deadline })

/-- `deposit_funds`: requires the record to exist and be `Created`; the
token pull is external; on success the status becomes `Active`. -/
def deposit_funds (st : Option Escrow) : Except Error Unit × Option Escrow :=
  match st with
  | none => (Except.error Error.EscrowNotFound, none)
  | some escrow =>
    if escrow.status ≠ EscrowStatus.Created then
      (Except.error Error.EscrowAlreadyFunded, some escrow)
    else
      (Except.ok (), some { escrow with status := EscrowStatus.Active })

/-- `release_milestone`: requires `Active`, a valid index and an unreleased
milestone; marks it `Released` and adds its amount to `total_released`
through `checked_add`.  The storage write happens only after every check,
so every error branch leaves the stored record untouched. -/
def release_milestone (st : Option Escrow) (milestone_index : Nat) :
    Except Error Unit × Option Escrow :=
  match st with
  | none => (Except.error Error.EscrowNotFound, none)
  | some escrow =>
    if escrow.status ≠ EscrowStatus.Active then
      (Except.error Error.EscrowNotActive, some escrow)
    else if escrow.milestones.length ≤ milestone_index then
      (Except.error Error.MilestoneNotFound, some escrow)
    else
      match escrow.milestones[milestone_index]? with
      | none => (Except.error Error.MilestoneNotFound, some escrow)
      | some milestone =>
        if milestone.status = MilestoneStatus.Released then
          (Except.error Error.MilestoneAlreadyReleased, some escrow)
        else
          let released := { milestone with status := MilestoneStatus.Released }
          let new_milestones := escrow.milestones.set milestone_index released
          match checkedAddI128 escrow.total_released milestone.amount with
          | none => (Except.error Error.InvalidMilestoneAmount, some escrow)
          | some t =>
            (Except.ok (),
             some { escrow with milestones := new_milestones, total_released := t })

/-- `cancel_escrow`: forbidden once `total_released > 0`; refunds (external
transfer) when `Active`; always ends `Cancelled` on success.  The source
performs no status check beyond the release guard. -/
def cancel_escrow (st : Option Escrow) : Except Error Unit × Option Escrow :=
  match st with
  | none => (Except.error Error.EscrowNotFound, none)
  | some escrow =>
    if 0 < escrow.total_released then
      (Except.error Error.MilestoneAlreadyReleased, some escrow)
    else
      (Except.ok (), some { escrow with status := EscrowStatus.Cancelled })

/-- `complete_escrow`: requires every milestone `Released` (and nothing
else); sets the status to `Completed`. -/
def complete_escrow (st : Option Escrow) : Except Error Unit × Option Escrow :=
  match st with
  | none => (Except.error Error.EscrowNotFound, none)
  | some escrow =>
    if ¬ verify_all_released escrow.milestones then
      (Except.error Error.EscrowNotActive, some escrow)
    else
      (Except.ok (), some { escrow with status := EscrowStatus.Completed })

/-! ## Confirmation subsystem data model
(`src/app/onchain/contracts/escrow/src/confirmation/types.rs`) -/

inductive ConfirmationThreshold where
  | All
  | Majority
  | Custom (required : Nat)
  deriving DecidableEq, Repr

inductive ConfirmationState where
  | Pending
  | Confirmed
  | Rejected
  deriving DecidableEq, Repr

structure PartyConfirmation where
  address : Nat
  state : ConfirmationState
  confirmed_at : Nat
  confirmation_count : Nat
  deriving DecidableEq, Repr

inductive EscrowConfirmationStatus where
  | Pending
  | Confirmed
  | Failed
  | Locked
  deriving DecidableEq, Repr

inductive ConfirmationError where
  | UnauthorizedParty
  | DuplicateConfirmation
  | EscrowLocked
  | EmptyPartyList
  | InvalidThreshold
  deriving DecidableEq, Repr

structure ConfirmationEvent where
  escrow_id : Nat
  party : Nat
  confirmed_at : Nat
  confirmations_count : Nat
  threshold_met : Bool
  deriving DecidableEq, Repr

/-! ## Threshold engine (`threshold.rs`)

The `Majority` branch of the source computes
`(total_parties as f64 / 2.0).ceil() as u32`.  Every `u32` is below `2^53`,
so the cast to `f64`, the division by `2.0` and `ceil` are all exact and the
result equals the integer ceiling of `total_parties / 2`, embedded as
`(total_parties + 1) / 2` on `Nat`. -/

def majorityRequired (total_parties : Nat) : Nat := (total_parties + 1) / 2

/-- `ThresholdLogic::is_threshold_met`. -/
def is_threshold_met (threshold : ConfirmationThreshold)
    (confirmations total_parties : Nat) : Bool :=
  match threshold with
  | ConfirmationThreshold.All => decide (total_parties ≤ confirmations)
  | ConfirmationThreshold.Majority =>
      decide (majorityRequired total_parties ≤ confirmations)
  | ConfirmationThreshold.Custom required => decide (required ≤ confirmations)

/-- `ThresholdLogic::get_required_confirmations`. -/
def get_required_confirmations (threshold : ConfirmationThreshold)
    (total_parties : Nat) : Nat :=
  match threshold with
  | ConfirmationThreshold.All => total_parties
  | ConfirmationThreshold.Majority => max (majorityRequired total_parties) 1
  | ConfirmationThreshold.Custom required => min required total_parties

/-- `ThresholdLogic::get_remaining_confirmations`. -/
def get_remaining_confirmations (threshold : ConfirmationThreshold)
    (confirmations total_parties : Nat) : Nat :=
  let required := get_required_confirmations threshold total_parties
  if confirmations ≥ required then 0 else required - confirmations

/-! ## Confirmation storage (`storage.rs`)

One escrow id's slots: the raw `u32` status code, the party→confirmation
map (an association list with overwrite-on-set), and the raw counter. -/

structure ConfSt where
  statusRaw : Option Nat
  confs : List (Nat × PartyConfirmation)
  countRaw : Option Nat
  deriving DecidableEq, Repr

/-- Decoding branch of `ConfirmationStorage::get_status`: any code other
than 0–3 falls through to `Pending`. -/
def decodeStatus (code : Nat) : EscrowConfirmationStatus :=
  match code with
  | 0 => EscrowConfirmationStatus.Pending
  | 1 => EscrowConfirmationStatus.Confirmed
  | 2 => EscrowConfirmationStatus.Failed
  | 3 => EscrowConfirmationStatus.Locked
  | _ => EscrowConfirmationStatus.Pending

/-- Encoding branch of `ConfirmationStorage::set_status`. -/
def encodeStatus : EscrowConfirmationStatus → Nat
  | EscrowConfirmationStatus.Pending => 0
  | EscrowConfirmationStatus.Confirmed => 1
  | EscrowConfirmationStatus.Failed => 2
  | EscrowConfirmationStatus.Locked => 3

/-- `ConfirmationStorage::get_status`: absent slot defaults to `Pending`. -/
def get_status (s : ConfSt) : EscrowConfirmationStatus :=
  (s.statusRaw.map decodeStatus).getD EscrowConfirmationStatus.Pending

/-- `ConfirmationStorage::set_status`. -/
def set_status (s : ConfSt) (status : EscrowConfirmationStatus) : ConfSt :=
  { s with statusRaw := some (encodeStatus status) }

/-- `Map::set` semantics on the association list: overwrite the existing
entry or append a fresh one. -/
def setAssoc (l : List (Nat × PartyConfirmation)) (k : Nat)
    (v : PartyConfirmation) : List (Nat × PartyConfirmation) :=
  match l with
  | [] => [(k, v)]
  | (k', v') :: rest => if k' = k then (k, v) :: rest else (k', v') :: setAssoc rest k v

/-- `ConfirmationStorage::get_party_confirmation`. -/
def get_party_confirmation (s : ConfSt) (party : Nat) : Option PartyConfirmation :=
  (s.confs.find? (fun p => p.1 == party)).map (fun p => p.2)

/-- `ConfirmationStorage::set_party_confirmation`. -/
def set_party_confirmation (s : ConfSt) (party : Nat)
    (confirmation : PartyConfirmation) : ConfSt :=
  { s with confs := setAssoc s.confs party confirmation }

/-- `ConfirmationStorage::get_confirmation_count`: absent slot defaults
to 0. -/
def get_confirmation_count (s : ConfSt) : Nat := s.countRaw.getD 0

/-- `ConfirmationStorage::increment_confirmation_count`; the `u32` addition
wraps modulo `2^32`. -/
def increment_confirmation_count (s : ConfSt) : ConfSt :=
  { s with countRaw := some ((get_confirmation_count s + 1) % 2 ^ 32) }

/-! ## Confirmation logic (`confirmation.rs`) -/

/-- `ConfirmationLogic::is_authorized_party`. -/
def is_authorized_party (address : Nat) (parties : List Nat) : Bool :=
  parties.any (fun party => party == address)

/-- `ConfirmationLogic::confirm`, translated check by check in source
order; all storage writes happen strictly after the last error return. -/
def confirm (s : ConfSt) (escrow_id : Nat) (timestamp : Nat) (caller : Nat)
    (parties : List Nat) (threshold : ConfirmationThreshold) :
    Except ConfirmationError ConfirmationEvent × ConfSt :=
  if get_status s = EscrowConfirmationStatus.Locked then
    (Except.error ConfirmationError.EscrowLocked, s)
  else if parties.length = 0 then
    (Except.error ConfirmationError.EmptyPartyList, s)
  else if ¬ is_authorized_party caller parties then
    (Except.error ConfirmationError.UnauthorizedParty, s)
  else if (get_party_confirmation s caller).any
      (fun conf => conf.state = ConfirmationState.Confirmed) then
    (Except.error ConfirmationError.DuplicateConfirmation, s)
  else
    let confirmation_count := (get_confirmation_count s + 1) % 2 ^ 32
    let confirmation : PartyConfirmation :=
      { address := caller, state := ConfirmationState.Confirmed,
        confirmed_at := timestamp, confirmation_count := confirmation_count }
    let s1 := set_party_confirmation s caller confirmation
    let s2 := increment_confirmation_count s1
    let threshold_met := is_threshold_met threshold confirmation_count parties.length
    let s3 := if threshold_met then set_status s2 EscrowConfirmationStatus.Confirmed else s2
    (Except.ok { escrow_id := escrow_id, party := caller, confirmed_at := timestamp,
                 confirmations_count := confirmation_count, threshold_met := threshold_met },
     s3)

/-! ## Reachability of escrow states

One transition per successful public escrow operation, starting from an
empty storage slot. -/

/-- Sum of all milestone amounts. -/
def sumAmounts : List Milestone → Int
  | [] => 0
  | m :: rest => m.amount + sumAmounts rest

/-- Sum of the amounts of the `Released` milestones. -/
def sumReleased : List Milestone → Int
  | [] => 0
  | m :: rest =>
    (if m.status = MilestoneStatus.Released then m.amount else 0) + sumReleased rest

/-- One successful public escrow-ledger operation. -/
inductive Step : Option Escrow → Option Escrow → Prop where
  | create (st : Option Escrow) (dep rec tok : Nat) (ms : List Milestone) (dl : Nat)
      (st' : Option Escrow)
      (h : create_escrow st dep rec tok ms dl = (Except.ok (), st')) : Step st st'
  | deposit (st st' : Option Escrow)
      (h : deposit_funds st = (Except.ok (), st')) : Step st st'
  | release (st : Option Escrow) (idx : Nat) (st' : Option Escrow)
      (h : release_milestone st idx = (Except.ok (), st')) : Step st st'
  | cancel (st st' : Option Escrow)
      (h : cancel_escrow st = (Except.ok (), st')) : Step st st'
  | complete (st st' : Option Escrow)
      (h : complete_escrow st = (Except.ok (), st')) : Step st st'

/-- States of one escrow id's storage slot reachable through the public
operations, starting from the empty slot. -/
def Reachable (st : Option Escrow) : Prop :=
  Relation.ReflTransGen Step none st

/-- Inductive invariant of a stored escrow record. -/
structure EscrowInv (e : Escrow) : Prop where
  total_eq : e.total_amount = sumAmounts e.milestones
  released_eq : e.total_released = sumReleased e.milestones
  amounts_pos : ∀ m ∈ e.milestones, 0 < m.amount
  total_le : e.total_amount ≤ i128Max
  created_pending : e.status = EscrowStatus.Created →
    ∀ m ∈ e.milestones, m.status = MilestoneStatus.Pending
  completed_released : e.status = EscrowStatus.Completed →
    ∀ m ∈ e.milestones, m.status = MilestoneStatus.Released
  cancelled_zero : e.status = EscrowStatus.Cancelled → e.total_released = 0

/-- The invariant lifted to the storage slot. -/
def StInv : Option Escrow → Prop
  | none => True
  | some e => EscrowInv e

/-! ### List lemmas about the two sums -/

theorem sumReleased_nonneg (l : List Milestone)
    (hpos : ∀ m ∈ l, 0 < m.amount) : 0 ≤ sumReleased l := by
  induction l with
  | nil => simp [sumReleased]
  | cons m rest ih =>
    have hm := hpos m (List.mem_cons_self m rest)
    have hrest : 0 ≤ sumReleased rest := ih (fun x hx => hpos x (List.mem_cons_of_mem m hx))
    simp only [sumReleased]
    split
    · omega
    · omega

theorem sumReleased_le_sumAmounts (l : List Milestone)
    (hpos : ∀ m ∈ l, 0 < m.amount) : sumReleased l ≤ sumAmounts l := by
  induction l with
  | nil => simp [sumReleased, sumAmounts]
  | cons m rest ih =>
    have hm := hpos m (List.mem_cons_self m rest)
    have hrest := ih (fun x hx => hpos x (List.mem_cons_of_mem m hx))
    simp only [sumReleased, sumAmounts]
    split
    · omega
    · omega

theorem sumAmounts_nonneg (l : List Milestone)
    (hpos : ∀ m ∈ l, 0 < m.amount) : 0 ≤ sumAmounts l := by
  induction l with
  | nil => simp [sumAmounts]
  | cons m rest ih =>
    have hm := hpos m (List.mem_cons_self m rest)
    have hrest := ih (fun x hx => hpos x (List.mem_cons_of_mem m hx))
    simp only [sumAmounts]
    omega

theorem sumAmounts_pos (l : List Milestone) (hne : l ≠ [])
    (hpos : ∀ m ∈ l, 0 < m.amount) : 0 < sumAmounts l := by
  cases l with
  | nil => exact absurd rfl hne
  | cons m rest =>
    have hm := hpos m (List.mem_cons_self m rest)
    have hrest : 0 ≤ sumAmounts rest :=
      sumAmounts_nonneg rest (fun x hx => hpos x (List.mem_cons_of_mem m hx))
    simp only [sumAmounts]
    omega

theorem sumReleased_all_pending (l : List Milestone)
    (h : ∀ m ∈ l, m.status ≠ MilestoneStatus.Released) : sumReleased l = 0 := by
  induction l with
  | nil => simp [sumReleased]
  | cons m rest ih =>
    have hm := h m (List.mem_cons_self m rest)
    have hrest := ih (fun x hx => h x (List.mem_cons_of_mem m hx))
    simp only [sumReleased, hrest]
    split
    · exact absurd (by assumption) hm
    · omega

theorem sumReleased_eq_sumAmounts_of_all_released (l : List Milestone)
    (h : ∀ m ∈ l, m.status = MilestoneStatus.Released) :
    sumReleased l = sumAmounts l := by
  induction l with
  | nil => simp [sumReleased, sumAmounts]
  | cons m rest ih =>
    have hm := h m (List.mem_cons_self m rest)
    have hrest := ih (fun x hx => h x (List.mem_cons_of_mem m hx))
    simp [sumReleased, sumAmounts, hm, hrest]

theorem sumAmounts_map_pending (l : List Milestone) :
    sumAmounts (l.map (fun m => { m with status := MilestoneStatus.Pending })) =
      sumAmounts l := by
  induction l with
  | nil => simp [sumAmounts]
  | cons m rest ih => simp [sumAmounts, ih]

theorem sumReleased_map_pending (l : List Milestone) :
    sumReleased (l.map (fun m => { m with status := MilestoneStatus.Pending })) = 0 := by
  induction l with
  | nil => simp [sumReleased]
  | cons m rest ih => simp [sumReleased, ih]

theorem sumAmounts_set_released (l : List Milestone) (i : Nat) (m : Milestone)
    (hget : l[i]? = some m) :
    sumAmounts (l.set i { m with status := MilestoneStatus.Released }) =
      sumAmounts l := by
  induction l generalizing i with
  | nil => simp at hget
  | cons x rest ih =>
    cases i with
    | zero =>
      simp only [List.getElem?_cons_zero, Option.some.injEq] at hget
      subst hget
      simp [sumAmounts, List.set]
    | succ n =>
      simp only [List.getElem?_cons_succ] at hget
      simp [sumAmounts, List.set, ih n hget]

theorem sumReleased_set_released (l : List Milestone) (i : Nat) (m : Milestone)
    (hget : l[i]? = some m) (hnot : m.status ≠ MilestoneStatus.Released) :
    sumReleased (l.set i { m with status := MilestoneStatus.Released }) =
      sumReleased l + m.amount := by
  induction l generalizing i with
  | nil => simp at hget
  | cons x rest ih =>
    cases i with
    | zero =>
      simp only [List.getElem?_cons_zero, Option.some.injEq] at hget
      subst hget
      simp [List.set, sumReleased, hnot]
      omega
    | succ n =>
      simp only [List.getElem?_cons_succ] at hget
      simp only [List.set, sumReleased, ih n hget]
      omega

theorem mem_set_released (l : List Milestone) (i : Nat) (m : Milestone) (x : Milestone)
    (hx : x ∈ l.set i { m with status := MilestoneStatus.Released }) :
    x ∈ l ∨ x = { m with status := MilestoneStatus.Released } := by
  rcases List.mem_or_eq_of_mem_set hx with h | h
  · exact Or.inl h
  · exact Or.inr h

/-! ### Facts about `validate_milestones` -/

theorem validateGo_ok_pos (l : List Milestone) (acc t : Int)
    (h : validateMilestonesGo acc l = Except.ok t) :
    ∀ m ∈ l, 0 < m.amount := by
  induction l generalizing acc with
  | nil => intro m hm; simp at hm
  | cons x rest ih =>
    intro m hm
    simp only [validateMilestonesGo] at h
    split at h
    · exact absurd h (by simp)
    · rename_i hxpos
      cases hadd : checkedAddI128 acc x.amount with
      | none => rw [hadd] at h; exact absurd h (by simp)
      | some t' =>
        rw [hadd] at h
        rcases List.mem_cons.mp hm with hmx | hmr
        · subst hmx; omega
        · exact ih t' h m hmr

theorem validateGo_ok_sum (l : List Milestone) (acc t : Int)
    (h : validateMilestonesGo acc l = Except.ok t) :
    t = acc + sumAmounts l := by
  induction l generalizing acc with
  | nil =>
    simp only [validateMilestonesGo, Except.ok.injEq] at h
    simp [sumAmounts, ← h]
  | cons x rest ih =>
    simp only [validateMilestonesGo] at h
    split at h
    · exact absurd h (by simp)
    · cases hadd : checkedAddI128 acc x.amount with
      | none => rw [hadd] at h; exact absurd h (by simp)
      | some t' =>
        rw [hadd] at h
        have ht' : t' = acc + x.amount := by
          simp only [checkedAddI128] at hadd
          split at hadd
          · simpa using hadd.symm
          · exact absurd hadd (by simp)
        have := ih t' h
        simp only [sumAmounts]
        omega

theorem validateGo_ok_upper (l : List Milestone) (acc t : Int)
    (hacc : acc ≤ i128Max)
    (h : validateMilestonesGo acc l = Except.ok t) :
    t ≤ i128Max := by
  induction l generalizing acc with
  | nil =>
    simp only [validateMilestonesGo, Except.ok.injEq] at h
    omega
  | cons x rest ih =>
    simp only [validateMilestonesGo] at h
    split at h
    · exact absurd h (by simp)
    · cases hadd : checkedAddI128 acc x.amount with
      | none => rw [hadd] at h; exact absurd h (by simp)
      | some t' =>
        rw [hadd] at h
        have ht' : t' ≤ i128Max := by
          simp only [checkedAddI128] at hadd
          split at hadd
          · rename_i hrange
            simp only [Option.some.injEq] at hadd
            omega
          · exact absurd hadd (by simp)
        exact ih t' ht' h

theorem validateGo_error_mem (l : List Milestone) (acc : Int) (e : Error)
    (h : validateMilestonesGo acc l = Except.error e) :
    e = Error.ZeroAmount ∨ e = Error.InvalidMilestoneAmount := by
  induction l generalizing acc with
  | nil => exact absurd h (by simp [validateMilestonesGo])
  | cons x rest ih =>
    simp only [validateMilestonesGo] at h
    split at h
    · simp only [Except.error.injEq] at h
      exact Or.inl h.symm
    · cases hadd : checkedAddI128 acc x.amount with
      | none =>
        rw [hadd] at h
        simp only [Except.error.injEq] at h
        exact Or.inr h.symm
      | some t' =>
        rw [hadd] at h
        exact ih t' h

/-- A take-prefix of the amount sum is at most the full sum when every
amount is nonnegative. -/
theorem sumAmounts_take_le (l : List Milestone) (k : Nat)
    (hpos : ∀ m ∈ l, 0 < m.amount) :
    sumAmounts (l.take k) ≤ sumAmounts l := by
  induction l generalizing k with
  | nil => simp [List.take]
  | cons x rest ih =>
    cases k with
    | zero =>
      have : 0 ≤ sumAmounts (x :: rest) := sumAmounts_nonneg _ hpos
      simpa [List.take, sumAmounts] using this
    | succ n =>
      have := ih n (fun m hm => hpos m (List.mem_cons_of_mem x hm))
      simp only [List.take, sumAmounts]
      omega

/-- Success of `validate_milestones`, fully characterized on the stored
data: positive amounts, correct total, total within i128 range, and every
running total within range. -/
theorem validate_ok_spec (l : List Milestone) (t : Int)
    (h : validate_milestones l = Except.ok t) :
    t = sumAmounts l ∧ (∀ m ∈ l, 0 < m.amount) ∧ 0 ≤ t ∧ t ≤ i128Max ∧
      (∀ k, sumAmounts (l.take k) ≤ i128Max) := by
  simp only [validate_milestones] at h
  split at h
  · exact absurd h (by simp)
  · have hpos := validateGo_ok_pos l 0 t h
    have hsum := validateGo_ok_sum l 0 t h
    have hup : t ≤ i128Max := validateGo_ok_upper l 0 t (by norm_num [i128Max]) h
    refine ⟨by omega, hpos, ?_, hup, ?_⟩
    · have := sumAmounts_nonneg l hpos
      omega
    · intro k
      have := sumAmounts_take_le l k hpos
      omega

/-! ### Invariant preservation -/

theorem create_escrow_inv (st : Option Escrow) (dep rec tok : Nat)
    (ms : List Milestone) (dl : Nat) (st' : Option Escrow)
    (h : create_escrow st dep rec tok ms dl = (Except.ok (), st'))
    (_hInv : StInv st) : StInv st' := by
  unfold create_escrow at h
  split at h
  · simp at h
  · split at h
    · simp at h
    · split at h
      · simp at h
      · rename_i total hv
        simp only [Prod.mk.injEq, true_and] at h
        subst h
        obtain ⟨hsum, hpos, hnn, hup, -⟩ := validate_ok_spec ms total hv
        refine ⟨?_, ?_, ?_, ?_, ?_, ?_, ?_⟩
        · simp only
          rw [sumAmounts_map_pending, hsum]
        · simp only
          rw [sumReleased_map_pending]
        · intro m hm
          simp only at hm
          rcases List.mem_map.mp hm with ⟨x, hx, rfl⟩
          exact hpos x hx
        · simpa using hup
        · intro _ m hm
          simp only at hm
          rcases List.mem_map.mp hm with ⟨x, hx, rfl⟩
          rfl
        · intro hc
          simp at hc
        · intro hc
          simp at hc

theorem deposit_funds_inv (st st' : Option Escrow)
    (h : deposit_funds st = (Except.ok (), st')) (hInv : StInv st) : StInv st' := by
  unfold deposit_funds at h
  match st, hInv with
  | none, _ => simp at h
  | some escrow, hesc =>
    simp only at h
    split at h
    · simp at h
    · simp only [Prod.mk.injEq, true_and] at h
      subst h
      exact ⟨hesc.total_eq, hesc.released_eq, hesc.amounts_pos, hesc.total_le,
        by intro hc; simp at hc, by intro hc; simp at hc, by intro hc; simp at hc⟩

theorem release_milestone_inv (st : Option Escrow) (idx : Nat) (st' : Option Escrow)
    (h : release_milestone st idx = (Except.ok (), st')) (hInv : StInv st) :
    StInv st' := by
  unfold release_milestone at h
  match st, hInv with
  | none, _ => simp at h
  | some escrow, hesc =>
    simp only at h
    split at h
    · simp at h
    · rename_i hactive
      rw [not_ne_iff] at hactive
      split at h
      · simp at h
      · split at h
        · simp at h
        · rename_i milestone hget
          split at h
          · simp at h
          · rename_i hnotrel
            split at h
            · simp at h
            · rename_i t hadd
              simp only [Prod.mk.injEq, true_and] at h
              subst h
              have hmem : milestone ∈ escrow.milestones := List.getElem?_mem hget
              have ht : t = escrow.total_released + milestone.amount := by
                simp only [checkedAddI128] at hadd
                split at hadd
                · simpa using hadd.symm
                · exact absurd hadd (by simp)
              refine ⟨?_, ?_, ?_, ?_, ?_, ?_, ?_⟩
              · simp only
                rw [sumAmounts_set_released escrow.milestones idx milestone hget]
                exact hesc.total_eq
              · simp only
                rw [sumReleased_set_released escrow.milestones idx milestone hget hnotrel,
                  ht, hesc.released_eq]
              · intro m hm
                simp only at hm
                rcases mem_set_released escrow.milestones idx milestone m hm with hmm | rfl
                · exact hesc.amounts_pos m hmm
                · exact hesc.amounts_pos milestone hmem
              · exact hesc.total_le
              · intro hc
                rw [show ({ escrow with
                  milestones := escrow.milestones.set idx
                    { milestone with status := MilestoneStatus.Released },
                  total_released := t } : Escrow).status = escrow.status from rfl,
                  hactive] at hc
                simp at hc
              · intro hc
                rw [show ({ escrow with
                  milestones := escrow.milestones.set idx
                    { milestone with status := MilestoneStatus.Released },
                  total_released := t } : Escrow).status = escrow.status from rfl,
                  hactive] at hc
                simp at hc
              · intro hc
                rw [show ({ escrow with
                  milestones := escrow.milestones.set idx
                    { milestone with status := MilestoneStatus.Released },
                  total_released := t } : Escrow).status = escrow.status from rfl,
                  hactive] at hc
                simp at hc

theorem cancel_escrow_inv (st st' : Option Escrow)
    (h : cancel_escrow st = (Except.ok (), st')) (hInv : StInv st) : StInv st' := by
  unfold cancel_escrow at h
  match st, hInv with
  | none, _ => simp at h
  | some escrow, hesc =>
    simp only at h
    split at h
    · simp at h
    · rename_i hzero
      simp only [Prod.mk.injEq, true_and] at h
      subst h
      have hrel0 : escrow.total_released = 0 := by
        have hnn : 0 ≤ sumReleased escrow.milestones :=
          sumReleased_nonneg escrow.milestones hesc.amounts_pos
        have := hesc.released_eq
        omega
      exact ⟨hesc.total_eq, hesc.released_eq, hesc.amounts_pos, hesc.total_le,
        by intro hc; simp at hc, by intro hc; simp at hc, fun _ => hrel0⟩

theorem complete_escrow_inv (st st' : Option Escrow)
    (h : complete_escrow st = (Except.ok (), st')) (hInv : StInv st) : StInv st' := by
  unfold complete_escrow at h
  match st, hInv with
  | none, _ => simp at h
  | some escrow, hesc =>
    simp only at h
    split at h
    · simp at h
    · rename_i hall
      rw [not_not] at hall
      simp only [Prod.mk.injEq, true_and] at h
      subst h
      have hrel : ∀ m ∈ escrow.milestones, m.status = MilestoneStatus.Released := by
        intro m hm
        have := List.all_eq_true.mp hall m hm
        simpa using this
      exact ⟨hesc.total_eq, hesc.released_eq, hesc.amounts_pos, hesc.total_le,
        by intro hc; simp at hc, fun _ => hrel, by intro hc; simp at hc⟩

theorem step_inv (st st' : Option Escrow) (h : Step st st') (hInv : StInv st) :
    StInv st' := by
  cases h with
  | create dep rec tok ms dl st2 h => exact create_escrow_inv _ _ _ _ _ _ _ h hInv
  | deposit st2 h => exact deposit_funds_inv _ _ h hInv
  | release idx st2 h => exact release_milestone_inv _ _ _ h hInv
  | cancel st2 h => exact cancel_escrow_inv _ _ h hInv
  | complete st2 h => exact complete_escrow_inv _ _ h hInv

theorem reachable_inv (st : Option Escrow) (h : Reachable st) : StInv st := by
  induction h with
  | refl => trivial
  | tail _ hstep ih => exact step_inv _ _ hstep ih

/-! ## Claim theorems -/

theorem met_custom_iff (k c n : Nat) :
    is_threshold_met (ConfirmationThreshold.Custom k) c n = true ↔ k ≤ c := by
  simp [is_threshold_met]

theorem remaining_custom_eq (k c n : Nat) :
    get_remaining_confirmations (ConfirmationThreshold.Custom k) c n = min k n - c := by
  simp only [get_remaining_confirmations, get_required_confirmations]
  split
  · omega
  · omega

/-- C4: `Custom(k)` is met iff `confirmed_count ≥ k`, uncapped by the party
count, while the remaining-confirmations helper computes
`max (0, min k n − c)` with the capped requirement; consequently a
confirmation count on which the two disagree exists exactly when `k > n`,
and with `Custom 5` over 3 parties the threshold is never met for any count
at most 3. -/
theorem custom_threshold_uncapped_vs_capped :
    (∀ k c n, is_threshold_met (ConfirmationThreshold.Custom k) c n = true ↔ k ≤ c) ∧
    (∀ k c n, get_remaining_confirmations (ConfirmationThreshold.Custom k) c n =
      min k n - c) ∧
    (∀ k n, (∃ c, ¬ (is_threshold_met (ConfirmationThreshold.Custom k) c n = true ↔
        get_remaining_confirmations (ConfirmationThreshold.Custom k) c n = 0)) ↔ n < k) ∧
    (∀ c, c ≤ 3 →
      is_threshold_met (ConfirmationThreshold.Custom 5) c 3 = false) := by
  refine ⟨met_custom_iff, remaining_custom_eq, ?_, ?_⟩
  · intro k n
    constructor
    · intro ⟨c, hc⟩
      by_contra hnk
      apply hc
      rw [met_custom_iff, remaining_custom_eq]
      omega
    · intro hnk
      refine ⟨n, ?_⟩
      rw [met_custom_iff, remaining_custom_eq]
      omega
  · intro c hc
    have h := met_custom_iff 5 c 3
    rcases hb : is_threshold_met (ConfirmationThreshold.Custom 5) c 3 with _ | _
    · rfl
    · rw [hb] at h
      have := h.mp rfl
      omega

/-- Witness for C4: the disagreement at `Custom 5`, 3 parties, count 3. -/
theorem custom_threshold_witness :
    is_threshold_met (ConfirmationThreshold.Custom 5) 3 3 = false :=
  custom_threshold_uncapped_vs_capped.2.2.2 3 (by decide)

/-- C6: for every `n ≥ 1` the `Majority` policy is met at exactly
`ceil(n/2) = (n+1)/2` confirmations and not met one below it. -/
theorem majority_threshold_boundary :
    ∀ n, 1 ≤ n →
      is_threshold_met ConfirmationThreshold.Majority ((n + 1) / 2) n = true ∧
      is_threshold_met ConfirmationThreshold.Majority ((n + 1) / 2 - 1) n = false := by
  intro n hn
  constructor
  · simp [is_threshold_met, majorityRequired]
  · simp only [is_threshold_met, majorityRequired, decide_eq_false_iff_not, not_le]
    omega

/-- Witness for C6 at `n = 3`: met at 2 confirmations, not met at 1. -/
theorem majority_threshold_witness :
    is_threshold_met ConfirmationThreshold.Majority 2 3 = true ∧
    is_threshold_met ConfirmationThreshold.Majority 1 3 = false :=
  majority_threshold_boundary 3 (by decide)

/-- C9: `create_escrow` accepts an empty milestone vector; with a fresh id
and distinct parties it succeeds and stores a record with zero totals, no
milestones, and status `Created`. -/
theorem create_escrow_empty_milestones :
    ∀ dep rec tok dl, dep ≠ rec →
      create_escrow none dep rec tok [] dl =
        (Except.ok (),
         some { depositor := dep, recipient := rec, token_address := tok,
                total_amount := 0, total_released := 0, milestones := [],
                status := EscrowStatus.Created, deadline := dl }) := by
  intro dep rec tok dl hne
  unfold create_escrow
  rw [if_neg hne]
  rfl

/-- Witness for C9 with concrete parties 0 and 1. -/
theorem create_escrow_empty_witness :
    create_escrow none 0 1 2 [] 0 =
      (Except.ok (),
       some { depositor := 0, recipient := 1, token_address := 2,
              total_amount := 0, total_released := 0, milestones := [],
              status := EscrowStatus.Created, deadline := 0 }) :=
  create_escrow_empty_milestones 0 1 2 0 (by decide)

/-- C10: overlay-status decoding is total: an absent slot reads `Pending`,
any stored code outside 0–3 decodes to `Pending`, and `set_status` followed
by `get_status` returns the status that was set. -/
theorem overlay_status_total :
    (∀ s, s.statusRaw = none → get_status s = EscrowConfirmationStatus.Pending) ∧
    (∀ s code, s.statusRaw = some code → code ≠ 0 → code ≠ 1 → code ≠ 2 → code ≠ 3 →
      get_status s = EscrowConfirmationStatus.Pending) ∧
    (∀ s x, get_status (set_status s x) = x) := by
  refine ⟨?_, ?_, ?_⟩
  · intro s h
    simp [get_status, h]
  · intro s code h h0 h1 h2 h3
    obtain ⟨m, rfl⟩ : ∃ m, code = m + 4 := ⟨code - 4, by omega⟩
    simp [get_status, h, decodeStatus]
  · intro s x
    cases x <;> rfl

/-- Witness for C10: empty slot, the out-of-range code 7, and a
`set`/`get` round trip of `Locked`. -/
theorem overlay_status_witness :
    get_status { statusRaw := none, confs := [], countRaw := none } =
      EscrowConfirmationStatus.Pending ∧
    get_status { statusRaw := some 7, confs := [], countRaw := none } =
      EscrowConfirmationStatus.Pending ∧
    get_status (set_status { statusRaw := some 1, confs := [], countRaw := none }
      EscrowConfirmationStatus.Locked) = EscrowConfirmationStatus.Locked :=
  ⟨overlay_status_total.1 _ rfl,
   overlay_status_total.2.1 _ 7 rfl (by decide) (by decide) (by decide) (by decide),
   overlay_status_total.2.2 _ _⟩

theorem is_authorized_party_iff (a : Nat) (parties : List Nat) :
    is_authorized_party a parties = true ↔ a ∈ parties := by
  simp only [is_authorized_party, List.any_eq_true, beq_iff_eq]
  exact ⟨fun ⟨x, hx, he⟩ => he ▸ hx, fun h => ⟨a, h, rfl⟩⟩

/-- C5: `confirm` checks its preconditions in source order — locked overlay
first, then empty party list, then party membership, then an existing
`Confirmed` record — returning the corresponding error for the first
violated one, and succeeds when none is violated. -/
theorem confirm_check_order :
    ∀ s eid ts caller parties thr,
      (get_status s = EscrowConfirmationStatus.Locked →
        (confirm s eid ts caller parties thr).1 =
          Except.error ConfirmationError.EscrowLocked) ∧
      (get_status s ≠ EscrowConfirmationStatus.Locked → parties = [] →
        (confirm s eid ts caller parties thr).1 =
          Except.error ConfirmationError.EmptyPartyList) ∧
      (get_status s ≠ EscrowConfirmationStatus.Locked → parties ≠ [] →
        caller ∉ parties →
        (confirm s eid ts caller parties thr).1 =
          Except.error ConfirmationError.UnauthorizedParty) ∧
      (get_status s ≠ EscrowConfirmationStatus.Locked → parties ≠ [] →
        caller ∈ parties →
        (∃ conf, get_party_confirmation s caller = some conf ∧
          conf.state = ConfirmationState.Confirmed) →
        (confirm s eid ts caller parties thr).1 =
          Except.error ConfirmationError.DuplicateConfirmation) ∧
      (get_status s ≠ EscrowConfirmationStatus.Locked → parties ≠ [] →
        caller ∈ parties →
        (∀ conf, get_party_confirmation s caller = some conf →
          conf.state ≠ ConfirmationState.Confirmed) →
        ∃ ev, (confirm s eid ts caller parties thr).1 = Except.ok ev) := by
  intro s eid ts caller parties thr
  refine ⟨?_, ?_, ?_, ?_, ?_⟩
  · intro h
    simp [confirm, h]
  · intro h1 h2
    subst h2
    simp [confirm, h1]
  · intro h1 h2 h3
    have hlen : ¬ parties.length = 0 := fun hc => h2 (List.length_eq_zero.mp hc)
    have hauth : ¬ is_authorized_party caller parties = true :=
      fun hc => h3 ((is_authorized_party_iff caller parties).mp hc)
    simp [confirm, h1, hlen, hauth]
  · intro h1 h2 h3 ⟨conf, hconf, hstate⟩
    have hlen : ¬ parties.length = 0 := fun hc => h2 (List.length_eq_zero.mp hc)
    have hauth : is_authorized_party caller parties = true :=
      (is_authorized_party_iff caller parties).mpr h3
    simp [confirm, h1, hlen, hauth, hconf, hstate]
  · intro h1 h2 h3 hnodup
    have hlen : ¬ parties.length = 0 := fun hc => h2 (List.length_eq_zero.mp hc)
    have hauth : is_authorized_party caller parties = true :=
      (is_authorized_party_iff caller parties).mpr h3
    have hany : (get_party_confirmation s caller).any
        (fun conf => conf.state = ConfirmationState.Confirmed) = false := by
      cases hc : get_party_confirmation s caller with
      | none => rfl
      | some conf =>
        simp only [Option.any_some, decide_eq_false_iff_not]
        exact hnodup conf hc
    unfold confirm
    rw [if_neg h1, if_neg hlen, if_neg (not_not_intro hauth), if_neg (by simp [hany])]
    exact ⟨_, rfl⟩

/-- Witness for C5: a locked overlay rejects, and a fresh state with the
caller among the parties succeeds. -/
theorem confirm_check_order_witness :
    (confirm { statusRaw := some 3, confs := [], countRaw := none } 0 0 7 [7]
      ConfirmationThreshold.All).1 = Except.error ConfirmationError.EscrowLocked ∧
    (∃ ev, (confirm { statusRaw := none, confs := [], countRaw := none } 0 0 7 [7]
      ConfirmationThreshold.All).1 = Except.ok ev) :=
  ⟨(confirm_check_order _ 0 0 7 [7] ConfirmationThreshold.All).1 rfl,
   (confirm_check_order _ 0 0 7 [7] ConfirmationThreshold.All).2.2.2.2 (by decide)
     (by decide) (by decide) (fun conf hc => by simp [get_party_confirmation] at hc)⟩

/-- C7: every mutating operation is atomic on error — whichever of the six
public operations returns an error leaves the stored state exactly as it
was, because no storage write precedes any error return. -/
theorem mutating_ops_atomic_on_error :
    (∀ st dep rec tok ms dl,
      (create_escrow st dep rec tok ms dl).1 = Except.ok () ∨
      (create_escrow st dep rec tok ms dl).2 = st) ∧
    (∀ st, (deposit_funds st).1 = Except.ok () ∨ (deposit_funds st).2 = st) ∧
    (∀ st idx,
      (release_milestone st idx).1 = Except.ok () ∨ (release_milestone st idx).2 = st) ∧
    (∀ st, (cancel_escrow st).1 = Except.ok () ∨ (cancel_escrow st).2 = st) ∧
    (∀ st, (complete_escrow st).1 = Except.ok () ∨ (complete_escrow st).2 = st) ∧
    (∀ s eid ts caller parties thr,
      (∃ ev, (confirm s eid ts caller parties thr).1 = Except.ok ev) ∨
      (confirm s eid ts caller parties thr).2 = s) := by
  refine ⟨?_, ?_, ?_, ?_, ?_, ?_⟩
  · intro st dep rec tok ms dl
    unfold create_escrow
    split
    · exact Or.inr rfl
    · split
      · exact Or.inr rfl
      · split
        · exact Or.inr rfl
        · exact Or.inl rfl
  · intro st
    cases st with
    | none => exact Or.inr rfl
    | some escrow =>
      simp only [deposit_funds]
      split
      · exact Or.inr rfl
      · exact Or.inl rfl
  · intro st idx
    cases st with
    | none => exact Or.inr rfl
    | some escrow =>
      simp only [release_milestone]
      split
      · exact Or.inr rfl
      · split
        · exact Or.inr rfl
        · split
          · exact Or.inr rfl
          · split
            · exact Or.inr rfl
            · split
              · exact Or.inr rfl
              · exact Or.inl rfl
  · intro st
    cases st with
    | none => exact Or.inr rfl
    | some escrow =>
      simp only [cancel_escrow]
      split
      · exact Or.inr rfl
      · exact Or.inl rfl
  · intro st
    cases st with
    | none => exact Or.inr rfl
    | some escrow =>
      simp only [complete_escrow]
      split
      · exact Or.inr rfl
      · exact Or.inl rfl
  · intro s eid ts caller parties thr
    unfold confirm
    split
    · exact Or.inr rfl
    · split
      · exact Or.inr rfl
      · split
        · exact Or.inr rfl
        · split
          · exact Or.inr rfl
          · exact Or.inl ⟨_, rfl⟩

/-! ## Concrete reachable states used by witnesses and counterexamples -/

/-- A single 5-unit milestone. -/
def msA : Milestone :=
  { amount := 5, status := MilestoneStatus.Pending, description := 0 }

/-- The escrow stored by `create_escrow none 0 1 2 [msA] 0`. -/
def escA : Escrow :=
  { depositor := 0, recipient := 1, token_address := 2, total_amount := 5,
    total_released := 0, milestones := [msA], status := EscrowStatus.Created,
    deadline := 0 }

/-- `escA` after `deposit_funds`. -/
def escB : Escrow := { escA with status := EscrowStatus.Active }

/-- `escB` after `release_milestone 0`. -/
def escC : Escrow :=
  { escB with
    milestones := [{ amount := 5, status := MilestoneStatus.Released, description := 0 }],
    total_released := 5 }

/-- `escC` after `complete_escrow`. -/
def escD : Escrow := { escC with status := EscrowStatus.Completed }

set_option maxRecDepth 8000

theorem reachable_escA : Reachable (some escA) :=
  Relation.ReflTransGen.single (Step.create none 0 1 2 [msA] 0 (some escA) rfl)

theorem reachable_escB : Reachable (some escB) :=
  Relation.ReflTransGen.tail reachable_escA (Step.deposit (some escA) (some escB) rfl)

theorem reachable_escC : Reachable (some escC) :=
  Relation.ReflTransGen.tail reachable_escB (Step.release (some escB) 0 (some escC) rfl)

theorem reachable_escD : Reachable (some escD) :=
  Relation.ReflTransGen.tail reachable_escC (Step.complete (some escC) (some escD) rfl)

/-- C2: on every reachable state `0 ≤ total_released ≤ total_amount`, and
the escrow stored by a successful `create_escrow` has `total_amount` equal
to the sum of the supplied milestone amounts. -/
theorem released_within_total_invariant :
    (∀ st e, Reachable st → st = some e →
      0 ≤ e.total_released ∧ e.total_released ≤ e.total_amount) ∧
    (∀ st dep rec tok ms dl e,
      create_escrow st dep rec tok ms dl = (Except.ok (), some e) →
      e.total_amount = sumAmounts ms) := by
  constructor
  · intro st e hreach hst
    subst hst
    have hesc : EscrowInv e := reachable_inv (some e) hreach
    have h0 : 0 ≤ sumReleased e.milestones :=
      sumReleased_nonneg e.milestones hesc.amounts_pos
    have hle : sumReleased e.milestones ≤ sumAmounts e.milestones :=
      sumReleased_le_sumAmounts e.milestones hesc.amounts_pos
    rw [hesc.released_eq, hesc.total_eq]
    exact ⟨h0, hle⟩
  · intro st dep rec tok ms dl e h
    unfold create_escrow at h
    split at h
    · simp at h
    · split at h
      · simp at h
      · split at h
        · simp at h
        · rename_i total hv
          simp only [Prod.mk.injEq, true_and, Option.some.injEq] at h
          obtain ⟨hsum, -, -, -, -⟩ := validate_ok_spec ms total hv
          rw [← h]
          exact hsum

/-- Witness for C2 on the reachable state `escC` and a concrete
`create_escrow` call. -/
theorem released_within_total_witness :
    ((0 : Int) ≤ escC.total_released ∧ escC.total_released ≤ escC.total_amount) ∧
    escA.total_amount = sumAmounts [msA] :=
  ⟨released_within_total_invariant.1 (some escC) escC reachable_escC rfl,
   released_within_total_invariant.2 none 0 1 2 [msA] 0 escA rfl⟩

/-- C8: on every reachable state the checked addition in
`release_milestone` cannot overflow — the operation never returns
`InvalidMilestoneAmount`. -/
theorem release_overflow_unreachable :
    ∀ st, Reachable st → ∀ idx,
      (release_milestone st idx).1 ≠ Except.error Error.InvalidMilestoneAmount := by
  intro st hreach idx
  have hInv := reachable_inv st hreach
  cases st with
  | none => simp [release_milestone]
  | some escrow =>
    have hesc : EscrowInv escrow := hInv
    simp only [release_milestone]
    split
    · simp
    · split
      · simp
      · split
        · simp
        · rename_i milestone hget
          split
          · simp
          · rename_i hnotrel
            have hmem : milestone ∈ escrow.milestones := List.getElem?_mem hget
            have hpos : 0 < milestone.amount := hesc.amounts_pos milestone hmem
            have hnn : 0 ≤ sumReleased escrow.milestones :=
              sumReleased_nonneg escrow.milestones hesc.amounts_pos
            have hposSet : ∀ x ∈ escrow.milestones.set idx
                { milestone with status := MilestoneStatus.Released }, 0 < x.amount := by
              intro x hx
              rcases mem_set_released escrow.milestones idx milestone x hx with hxm | rfl
              · exact hesc.amounts_pos x hxm
              · exact hpos
            have h1 : sumReleased escrow.milestones + milestone.amount =
                sumReleased (escrow.milestones.set idx
                  { milestone with status := MilestoneStatus.Released }) :=
              (sumReleased_set_released escrow.milestones idx milestone hget hnotrel).symm
            have h2 : sumReleased (escrow.milestones.set idx
                  { milestone with status := MilestoneStatus.Released }) ≤
                sumAmounts (escrow.milestones.set idx
                  { milestone with status := MilestoneStatus.Released }) :=
              sumReleased_le_sumAmounts _ hposSet
            have h3 : sumAmounts (escrow.milestones.set idx
                  { milestone with status := MilestoneStatus.Released }) =
                sumAmounts escrow.milestones :=
              sumAmounts_set_released escrow.milestones idx milestone hget
            have hup : escrow.total_released + milestone.amount ≤ i128Max := by
              have := hesc.total_le
              have := hesc.total_eq
              have := hesc.released_eq
              omega
            have hlo : i128Min ≤ escrow.total_released + milestone.amount := by
              have := hesc.released_eq
              have : (0 : Int) < 2 ^ 127 := by positivity
              simp only [i128Min]
              omega
            rw [show checkedAddI128 escrow.total_released milestone.amount =
                some (escrow.total_released + milestone.amount) from
              if_pos ⟨hlo, hup⟩]
            simp

/-- Witness for C8 on the reachable funded state `escB` at index 0. -/
theorem release_overflow_unreachable_witness :
    (release_milestone (some escB) 0).1 ≠ Except.error Error.InvalidMilestoneAmount :=
  release_overflow_unreachable (some escB) reachable_escB 0

/-- The escrow stored by `create_escrow none 0 1 2 [] 0`. -/
def escEmpty : Escrow :=
  { depositor := 0, recipient := 1, token_address := 2, total_amount := 0,
    total_released := 0, milestones := [], status := EscrowStatus.Created,
    deadline := 0 }

/-- Counterexample to C3: a successful `create_escrow` with an empty
milestone vector stores `total_amount = 0`, which is not strictly
positive. -/
theorem create_positive_total_counterexample :
    (create_escrow none 0 1 2 [] 0).1 = Except.ok () ∧
    (create_escrow none 0 1 2 [] 0).2 = some escEmpty ∧
    ¬ (0 < escEmpty.total_amount) :=
  ⟨rfl, rfl, by decide⟩

/-- C3 (amended): a successful `create_escrow` stores `total_amount` equal
to the sum of the supplied milestone amounts, nonnegative, and strictly
positive whenever at least one milestone is supplied; when the preliminary
checks pass (distinct parties, fresh id, at most 20 milestones),
`create_escrow` fails with `ZeroAmount` or `InvalidMilestoneAmount` if some
milestone amount is ≤ 0 or some running sum exceeds the i128 range. -/
theorem create_total_amount_spec :
    (∀ st dep rec tok ms dl e,
      create_escrow st dep rec tok ms dl = (Except.ok (), some e) →
      e.total_amount = sumAmounts ms ∧ 0 ≤ e.total_amount ∧
        (ms ≠ [] → 0 < e.total_amount)) ∧
    (∀ st dep rec tok ms dl, dep ≠ rec → st = none → ms.length ≤ 20 →
      ((∃ m ∈ ms, m.amount ≤ 0) ∨ (∃ k, i128Max < sumAmounts (ms.take k))) →
      ∃ e, (create_escrow st dep rec tok ms dl).1 = Except.error e ∧
        (e = Error.ZeroAmount ∨ e = Error.InvalidMilestoneAmount)) := by
  constructor
  · intro st dep rec tok ms dl e h
    unfold create_escrow at h
    split at h
    · simp at h
    · split at h
      · simp at h
      · split at h
        · simp at h
        · rename_i total hv
          simp only [Prod.mk.injEq, true_and, Option.some.injEq] at h
          obtain ⟨hsum, hpos, hnn, -, -⟩ := validate_ok_spec ms total hv
          subst h
          refine ⟨hsum, by simpa [hsum] using hnn, fun hne => ?_⟩
          simp only
          rw [hsum]
          exact sumAmounts_pos ms hne hpos
  · intro st dep rec tok ms dl hdep hst hlen H
    subst hst
    unfold create_escrow
    rw [if_neg hdep, if_neg (by simp : ¬ (none : Option Escrow).isSome = true)]
    cases hv : validate_milestones ms with
    | ok total =>
      exfalso
      obtain ⟨-, hpos_all, -, -, htake⟩ := validate_ok_spec ms total hv
      rcases H with ⟨m, hm, hle⟩ | ⟨k, hk⟩
      · have := hpos_all m hm
        omega
      · have := htake k
        omega
    | error e =>
      refine ⟨e, rfl, ?_⟩
      have hgo : validateMilestonesGo 0 ms = Except.error e := by
        unfold validate_milestones at hv
        rw [if_neg (by omega)] at hv
        exact hv
      exact validateGo_error_mem ms 0 e hgo

/-- Witness for the amended C3: the one-milestone creation stores total 5,
and a zero-amount milestone is rejected with `ZeroAmount` or
`InvalidMilestoneAmount`. -/
theorem create_total_amount_witness :
    (escA.total_amount = sumAmounts [msA] ∧ 0 ≤ escA.total_amount ∧
      ([msA] ≠ [] → 0 < escA.total_amount)) ∧
    (∃ e, (create_escrow none 0 1 2
        [{ amount := 0, status := MilestoneStatus.Pending, description := 0 }] 0).1 =
        Except.error e ∧
      (e = Error.ZeroAmount ∨ e = Error.InvalidMilestoneAmount)) :=
  ⟨create_total_amount_spec.1 none 0 1 2 [msA] 0 escA rfl,
   create_total_amount_spec.2 none 0 1 2
     [{ amount := 0, status := MilestoneStatus.Pending, description := 0 }] 0
     (by decide) rfl (by decide)
     (Or.inl ⟨{ amount := 0, status := MilestoneStatus.Pending, description := 0 },
       by decide, by decide⟩)⟩

/-! ## Terminality of `Completed` and `Cancelled` (C1) -/

/-- `escEmpty` after `complete_escrow` (vacuously all released). -/
def escEmptyCompleted : Escrow := { escEmpty with status := EscrowStatus.Completed }

/-- The stored status of one escrow id's slot. -/
def statusOf : Option Escrow → Option EscrowStatus
  | none => none
  | some e => some e.status

/-- No public escrow operation changes the stored status of the slot. -/
def FrozenAt (st : Option Escrow) : Prop :=
  (∀ dep rec tok ms dl, statusOf (create_escrow st dep rec tok ms dl).2 = statusOf st) ∧
  statusOf (deposit_funds st).2 = statusOf st ∧
  (∀ idx, statusOf (release_milestone st idx).2 = statusOf st) ∧
  statusOf (cancel_escrow st).2 = statusOf st ∧
  statusOf (complete_escrow st).2 = statusOf st

/-- Counterexample to C1: a reachable escrow with zero milestones and
status `Completed` on which `cancel_escrow` succeeds and moves the stored
status to `Cancelled` — `Completed` is not terminal. -/
theorem terminal_status_counterexample :
    Reachable (some escEmptyCompleted) ∧
    escEmptyCompleted.status = EscrowStatus.Completed ∧
    (cancel_escrow (some escEmptyCompleted)).1 = Except.ok () ∧
    (cancel_escrow (some escEmptyCompleted)).2 =
      some { escEmptyCompleted with status := EscrowStatus.Cancelled } ∧
    (cancel_escrow (some escEmptyCompleted)).2 ≠ some escEmptyCompleted := by
  refine ⟨?_, rfl, rfl, rfl, by decide⟩
  exact Relation.ReflTransGen.tail
    (Relation.ReflTransGen.single (Step.create none 0 1 2 [] 0 (some escEmpty) rfl))
    (Step.complete (some escEmpty) (some escEmptyCompleted) rfl)

/-- C1 (amended): for every reachable escrow with at least one milestone
whose status is `Completed` or `Cancelled`, no public operation changes the
stored status; for zero-milestone escrows `complete_escrow` and
`cancel_escrow` can still flip the status between the two terminal
states. -/
theorem terminal_status_amended :
    ∀ st e, Reachable st → st = some e → e.milestones ≠ [] →
      (e.status = EscrowStatus.Completed ∨ e.status = EscrowStatus.Cancelled) →
      FrozenAt st := by
  intro st e hreach hst hne hterm
  subst hst
  have hesc : EscrowInv e := reachable_inv (some e) hreach
  have hcreate : ∀ dep rec tok ms dl,
      statusOf (create_escrow (some e) dep rec tok ms dl).2 = statusOf (some e) := by
    intro dep rec tok ms dl
    unfold create_escrow
    split
    · rfl
    · split
      · rfl
      · rename_i h2
        exact absurd rfl h2
  rcases hterm with hC | hX
  · have hall : ∀ m ∈ e.milestones, m.status = MilestoneStatus.Released :=
      hesc.completed_released hC
    have hrelpos : 0 < e.total_released := by
      rw [hesc.released_eq, sumReleased_eq_sumAmounts_of_all_released _ hall]
      exact sumAmounts_pos _ hne hesc.amounts_pos
    have hv : verify_all_released e.milestones = true :=
      List.all_eq_true.mpr (fun m hm => decide_eq_true (hall m hm))
    refine ⟨hcreate, ?_, ?_, ?_, ?_⟩
    · simp only [deposit_funds]
      rw [if_pos (by simp [hC])]
    · intro idx
      simp only [release_milestone]
      rw [if_pos (by simp [hC])]
    · simp only [cancel_escrow]
      rw [if_pos hrelpos]
    · simp only [complete_escrow]
      rw [if_neg (not_not_intro hv)]
      simp [statusOf, hC]
  · have hzero := hesc.cancelled_zero hX
    have hnotall : verify_all_released e.milestones = false := by
      cases hvb : verify_all_released e.milestones with
      | false => rfl
      | true =>
        exfalso
        have hall : ∀ m ∈ e.milestones, m.status = MilestoneStatus.Released := by
          intro m hm
          have := List.all_eq_true.mp hvb m hm
          simpa using this
        have heq : sumReleased e.milestones = sumAmounts e.milestones :=
          sumReleased_eq_sumAmounts_of_all_released _ hall
        have hpos := sumAmounts_pos _ hne hesc.amounts_pos
        have := hesc.released_eq
        omega
    refine ⟨hcreate, ?_, ?_, ?_, ?_⟩
    · simp only [deposit_funds]
      rw [if_pos (by simp [hX])]
    · intro idx
      simp only [release_milestone]
      rw [if_pos (by simp [hX])]
    · simp only [cancel_escrow]
      rw [if_neg (by rw [hzero]; omega)]
      simp [statusOf, hX]
    · simp only [complete_escrow]
      rw [if_pos (by simp [hnotall])]

/-- Witness for the amended C1: the reachable one-milestone completed
escrow `escD` is frozen. -/
theorem terminal_status_amended_witness : FrozenAt (some escD) :=
  terminal_status_amended (some escD) escD reachable_escD rfl (by decide) (Or.inl rfl)
